import Mathlib

/-!
Verification development for the TCR repertoire pipeline
(data cleaning, exploratory statistics, k-mer preprocessing).

The definitions below are a shallow embedding of the Python sources
`src/data_cleaning.py`, `src/eda.py` and `src/preprocessing.py`:

* a pandas `DataFrame` of one repertoire becomes a `List` of `Row`s;
* the `dict[str, DataFrame]` passed between stages becomes an
  association list `List (String × SequenceTable)` (Python dicts
  preserve insertion order, and the code iterates over `keys()`);
* raised exceptions (`DiseaseNotSupportedError`, `KeyError`,
  `ZeroDivisionError`) become `none` / an error flag;
* floating point proportions become exact rationals `ℚ`;
* `numpy.sqrt` at the very end of the standard-deviation computation is
  represented by storing the radicand (the variance): no claim compares
  a standard deviation numerically, and `Real.sqrt` is not computable.
-/

namespace TCR

/-- One row of a repertoire table: the CDR3 amino-acid sequence and the
three gene-segment columns (`data_cleaning.py` loads exactly
`AASeq, Vregion, Dregion, Jregion`; `cloneFraction` plays no part in the
functions verified here). -/
structure Row where
  AASeq : String
  Vregion : String
  Dregion : String
  Jregion : String
deriving DecidableEq, Repr

/-- A repertoire table: the ordered rows of one pandas `DataFrame`. -/
abbrev SequenceTable := List Row

/-- The `dict[str, pd.DataFrame]` passed between pipeline stages,
as an insertion-ordered association list with unique keys. -/
abbrev RepertoireCollection := List (String × SequenceTable)

/-- Python's substring test `needle in hay`. -/
def containsSub (needle hay : String) : Bool :=
  decide (needle.data <:+: hay.data)

/-- Whitespace predicate used by `str.strip` (model: ASCII whitespace). -/
def wsp (c : Char) : Bool := c.isWhitespace

/-- `str.strip()` on the underlying character list: drop leading
whitespace, then drop trailing whitespace. -/
def stripChars (l : List Char) : List Char :=
  ((l.dropWhile wsp).reverse.dropWhile wsp).reverse

/-- Python `s.strip()`. -/
def pyStrip (s : String) : String := String.mk (stripChars s.data)

/-- `dataset[file]['AASeq'] = dataset[file]['AASeq'].str.strip()`
applied to one row. -/
def stripRow (r : Row) : Row := { r with AASeq := pyStrip r.AASeq }

/-- `DataCleaner.special_characters`: the regex fragments
`\+`, `\*`, `_` each match one literal character. -/
def special_characters : List Char := ['+', '*', '_']

/-- One pass of `remove_special_characters` for a single character:
drop the rows whose `AASeq` contains it
(`dataset[file].drop(idx)` with `idx` from `str.contains`). -/
def removeCharTable (t : SequenceTable) (c : Char) : SequenceTable :=
  t.filter (fun r => !(r.AASeq.contains c))

/-- `DataCleaner.remove_special_characters` (data_cleaning.py:151-188):
for every repertoire, successively drop the rows containing each special
character; the dictionary keeps the same keys. -/
def remove_special_characters (chars : List Char) (data : RepertoireCollection) :
    RepertoireCollection :=
  data.map (fun e => (e.1, chars.foldl removeCharTable e.2))

/-- `DataCleaner.min_seq_size` default. -/
def min_seq_size : Nat := 10

/-- `DataCleaner.max_seq_size` default. -/
def max_seq_size : Nat := 24

/-- The per-table body of `DataCleaner.assert_size`
(data_cleaning.py:190-220): strip whitespace from `AASeq`, then keep the
rows with `min_seq_size <= len(AASeq) <= max_seq_size`. -/
def assertSizeTable (t : SequenceTable) : SequenceTable :=
  (t.map stripRow).filter
    (fun r => decide (min_seq_size ≤ r.AASeq.length) &&
              decide (r.AASeq.length ≤ max_seq_size))

/-- `DataCleaner.assert_size` over the whole collection. -/
def assert_size (data : RepertoireCollection) : RepertoireCollection :=
  data.map (fun e => (e.1, assertSizeTable e.2))

/-- `DataCleaner.remove_incomplete_seqs` (data_cleaning.py:222-250):
keep the rows whose `AASeq` starts with `C` and ends with `F`. -/
def remove_incomplete_seqs (data : RepertoireCollection) : RepertoireCollection :=
  data.map (fun e =>
    (e.1, e.2.filter (fun r => r.AASeq.startsWith "C" && r.AASeq.endsWith "F")))

/-- `DataCleaner.supported_disease_types`, in source order. -/
def supported_disease_types : List String :=
  ["breast", "lymphoblastic_leukemia", "myeloid_leukemia", "liver", "lung",
   "glioblastoma", "esophageal"]

/-- The loop body of `DataCleaner.check_for_support`: return the first
vocabulary entry that is a substring of the id, else fall through. -/
def checkLoop (id : String) : List String → Option String
  | [] => none
  | d :: rest => if containsSub d id then some d else checkLoop id rest

/-- `DataCleaner.check_for_support` (data_cleaning.py:252-261).
`none` models `raise DiseaseNotSupportedError`. -/
def check_for_support (id : String) : Option String :=
  checkLoop id supported_disease_types

/-- `DataCleaner.name_files`: the save path for one disease. -/
def name_files (cancer_type : String) : String :=
  "data/cleaned_files/" ++ cancer_type ++ ".csv"

/-- The table written for one supported disease inside `join_files`:
the keys containing the disease label are grouped; a single member is
saved as-is, several members are concatenated with `pd.concat`. -/
def groupTable (cleaned : RepertoireCollection) (disease : String) : SequenceTable :=
  let files := cleaned.filter (fun e => containsSub disease e.1)
  if files.length = 1 then (files.map Prod.snd).headD []
  else (files.map Prod.snd).foldr (· ++ ·) []

/-- The loop of `DataCleaner.join_files` (data_cleaning.py:270-311) over
the key list.  Returns the `to_csv` calls performed, in order, and
whether `DiseaseNotSupportedError` was raised.  A raise stops the loop:
files already written stay written. -/
def join_files_go (cleaned : RepertoireCollection) : List String →
    List (String × SequenceTable) × Bool
  | [] => ([], false)
  | k :: rest =>
    match check_for_support k with
    | none => ([], true)
    | some d =>
      let tail_result := join_files_go cleaned rest
      ((name_files d, groupTable cleaned d) :: tail_result.1, tail_result.2)

/-- `DataCleaner.join_files`: iterate over `cleaned_data.keys()`. -/
def join_files (cleaned : RepertoireCollection) :
    List (String × SequenceTable) × Bool :=
  join_files_go cleaned (cleaned.map Prod.fst)

/-- The save that `join_files` performs for one supported key
(used to describe the output trace of a run). -/
def save_entry (cleaned : RepertoireCollection) (k : String) :
    String × SequenceTable :=
  match check_for_support k with
  | none => ("", [])
  | some d => (name_files d, groupTable cleaned d)

/-- Dictionary lookup `m[k]`; `none` models `KeyError`. -/
def lookupS {α : Type} (m : List (String × α)) (k : String) : Option α :=
  (m.find? (fun e => e.1 == k)).map Prod.snd

/-- Dictionary assignment `m[k] = v`: replace in place if the key is
present, else append (Python dicts keep insertion order). -/
def dset {α : Type} (m : List (String × α)) (k : String) (v : α) :
    List (String × α) :=
  if m.any (fun e => e.1 == k) then
    m.map (fun e => if e.1 == k then (k, v) else e)
  else m ++ [(k, v)]

/-- `ExploratoryAnalyzer.count_sequences_per_disease` (eda.py:62-84):
for each repertoire of the input, write its row count into the
`sequence_counts` instance attribute (entries for other keys survive). -/
def count_sequences_per_disease (counts : List (String × Nat))
    (data : RepertoireCollection) : List (String × Nat) :=
  data.foldl (fun acc e => dset acc e.1 e.2.length) counts

/-- pandas `value_counts(normalize=True)`: each distinct value with its
relative frequency (entry order of the pandas result is abstracted). -/
def valueCounts {α : Type} [DecidableEq α] (l : List α) : List (α × ℚ) :=
  l.dedup.map (fun v => (v, (l.count v : ℚ) / (l.length : ℚ)))

/-- The value stored in `seq_len_metrics` by
`count_sequence_length_metrics`: per-repertoire normalized length
histograms, the pooled dataset mean, and the radicand of the pooled
standard deviation (the code stores `sqrt variance`). -/
structure SeqLenMetrics where
  len_counts : List (String × List (Nat × ℚ))
  mean_len : ℚ
  variance : ℚ
deriving DecidableEq, Repr

/-- `ExploratoryAnalyzer.count_sequence_length_metrics` (eda.py:86-138).
The method reads `self.sequence_counts[repertoire]` for every repertoire
of the input — state populated by a *previous*
`count_sequences_per_disease` call — so it takes that state as an
argument here.  `none` models the `KeyError` raised when a repertoire is
missing from that state, and the `ZeroDivisionError` raised when the
total count read from it is zero.  `totalFromCounts` is the
`total_num_of_seqs += self.sequence_counts[repertoire]` loop. -/
def totalFromCounts (counts : List (String × Nat))
    (data : RepertoireCollection) : Option Nat :=
  data.foldlM (fun acc e => (lookupS counts e.1).map (fun n => acc + n)) (0 : Nat)

/-- `ExploratoryAnalyzer.count_sequence_length_metrics` (eda.py:86-138),
continued: the per-repertoire histograms and the pooled mean/variance,
failing like the Python loop does. -/
def count_sequence_length_metrics (counts : List (String × Nat))
    (data : RepertoireCollection) : Option SeqLenMetrics :=
  match totalFromCounts counts data with
  | none => none
  | some totalNum =>
    if totalNum = 0 then none
    else
      let perRep := data.map (fun e =>
        (e.1, valueCounts (e.2.map (fun r => r.AASeq.length))))
      let totalLens : Nat :=
        (data.map (fun e => (e.2.map (fun r => r.AASeq.length)).sum)).sum
      let mean : ℚ := (totalLens : ℚ) / (totalNum : ℚ)
      let allLens := data.flatMap (fun e => e.2.map (fun r => r.AASeq.length))
      let variance : ℚ :=
        ((allLens.map (fun L => ((L : ℚ) - mean) ^ 2)).sum) / (totalNum : ℚ)
      some ⟨perRep, mean, variance⟩

/-- Total number of sequences actually present in a collection. -/
def totalSeqs (data : RepertoireCollection) : Nat :=
  (data.map (fun e => e.2.length)).sum

/-- `ExploratoryAnalyzer.count_gene_usage` (eda.py:140-175): for each of
the three regions, the per-repertoire normalized value distribution. -/
def count_gene_usage (data : RepertoireCollection) :
    List (String × List (String × List (String × ℚ))) :=
  [("Vregion", data.map (fun e => (e.1, valueCounts (e.2.map (fun r => r.Vregion))))),
   ("Jregion", data.map (fun e => (e.1, valueCounts (e.2.map (fun r => r.Jregion))))),
   ("Dregion", data.map (fun e => (e.1, valueCounts (e.2.map (fun r => r.Dregion)))))]

/-- The `AASeq` column of a repertoire. -/
def seqsOf (t : SequenceTable) : List String := t.map (fun r => r.AASeq)

/-- `len(set(A.AASeq).intersection(B.AASeq))`. -/
def interCount (ta tb : SequenceTable) : Nat :=
  (((seqsOf ta).dedup).filter (fun s => decide (s ∈ seqsOf tb))).length

/-- `len(set(A.AASeq).union(B.AASeq))`. -/
def unionCount (ta tb : SequenceTable) : Nat :=
  ((seqsOf ta ++ seqsOf tb).dedup).length

/-- `intersection/union` for one ordered pair (exact rational; the
Python code raises `ZeroDivisionError` when the union is empty, which
the theorems below exclude by hypothesis). -/
def jaccardVal (ta tb : SequenceTable) : ℚ :=
  (interCount ta tb : ℚ) / (unionCount ta tb : ℚ)

/-- `ExploratoryAnalyzer.compute_jaccard_index` (eda.py:177-229): for
every repertoire A, the scores against every other repertoire B in
collection order, skipping `repertoire_A == repertoire_B`. -/
def compute_jaccard_index (data : RepertoireCollection) :
    List (String × List (String × ℚ)) :=
  data.map (fun p =>
    (p.1, (data.filter (fun q => !(q.1 == p.1))).map
      (fun q => (q.1, jaccardVal p.2 q.2))))

/-- Spec-side Jaccard index, stated over de-duplicated finite sets:
`|set(A) ∩ set(B)| / |set(A) ∪ set(B)|`. -/
def jaccardFinset (ta tb : SequenceTable) : ℚ :=
  (((seqsOf ta).toFinset ∩ (seqsOf tb).toFinset).card : ℚ) /
    (((seqsOf ta).toFinset ∪ (seqsOf tb).toFinset).card : ℚ)

/-- Residue distribution per 1-based position for one repertoire
(`ExploratoryAnalyzer.count_aa_occurrences`, eda.py:231-269): at every
position, the normalized distribution of the residues of the sequences
long enough to reach it. -/
def aaDist (t : SequenceTable) : List (Nat × List (Char × ℚ)) :=
  let maxLen := (t.map (fun r => r.AASeq.length)).foldr max 0
  (List.range maxLen).map (fun i =>
    (i + 1, valueCounts ((t.filter (fun r => i < r.AASeq.length)).map
      (fun r => r.AASeq.data.getD i 'A'))))

/-- `ExploratoryAnalyzer.count_aa_occurrences` over the collection. -/
def count_aa_occurrences (data : RepertoireCollection) :
    List (String × List (Nat × List (Char × ℚ))) :=
  data.map (fun e => (e.1, aaDist e.2))

/-- The 20-letter canonical amino-acid alphabet, in the order used by
`KmerPreprocessor.__init__` (preprocessing.py:67). -/
def aminoAlphabet : List Char := "ARNDCEQGHILKMFPSTWYV".data

/-- `itertools.product(alphabet, repeat=k)`: all length-`k` character
tuples, first coordinate varying slowest. -/
def kmerProduct : Nat → List (List Char)
  | 0 => [[]]
  | n + 1 => aminoAlphabet.flatMap (fun c => (kmerProduct n).map (fun t => c :: t))

/-- The k-mer vocabulary: the joined strings, in product order. -/
def kmerVocab (k : Nat) : List String :=
  (kmerProduct k).map (fun l => String.mk l)

/-- `KmerPreprocessor.base_kmer_counter`: the zero-initialized template
dictionary over the full vocabulary. -/
def base_kmer_counter (k : Nat) : List (String × Nat) :=
  (kmerVocab k).map (fun w => (w, 0))

/-- `kmer_vals[key] += 1`: `none` models the `KeyError` raised when the
key is absent from the dictionary. -/
def incr (m : List (String × Nat)) (key : String) :
    Option (List (String × Nat)) :=
  if m.any (fun e => e.1 == key) then
    some (m.map (fun e => if e.1 == key then (e.1, e.2 + 1) else e))
  else none

/-- `nltk.ngrams(sequence, k)`: the overlapping stride-1 windows of
width `k`; a sequence shorter than `k` yields no windows. -/
def windows (k : Nat) : List Char → List (List Char)
  | [] => []
  | c :: rest =>
    if k ≤ rest.length + 1 then (c :: rest).take k :: windows k rest else []

/-- The inner loop of `KmerPreprocessor.count_kmers`: increment the
counter for every window of one sequence. -/
def incrAll (m : List (String × Nat)) (ws : List (List Char)) :
    Option (List (String × Nat)) :=
  ws.foldlM (fun mm w => incr mm (String.mk w)) m

/-- `KmerPreprocessor.count_kmers` (preprocessing.py:123-142): start
from a fresh copy of the template and count the windows of every
sequence of the subsample; `none` models a `KeyError`. -/
def count_kmers (k : Nat) (base : List (String × Nat)) (sequences : List String) :
    Option (List (String × Nat)) :=
  sequences.foldlM (fun m s => incrAll m (windows k s.data)) base

/-- `subsample_kmers['target'] = target_vals[repertoire]`
(preprocessing.py:180): dictionary assignment of the fresh key. -/
def add_target (m : List (String × Nat)) (tv : Nat) : List (String × Nat) :=
  dset m "target" tv

/-- `KmerPreprocessor.create_targets` (preprocessing.py:106-121):
`{disease: value for value, disease in enumerate(sorted(data.keys()))}`. -/
def create_targets (ks : List String) : List (String × Nat) :=
  ((List.insertionSort (fun a b => a ≤ b) ks).enum).map (fun e => (e.2, e.1))

/-- A row with only the `AASeq` column populated (example helper). -/
def mkRow (s : String) : Row := ⟨s, "", "", ""⟩

/-- A collection whose second repertoire id matches no vocabulary entry
while the first one is supported. -/
def exBadCollection : RepertoireCollection :=
  [("breast_1", [mkRow "CASSF"]), ("zzz", [])]

/-- A one-repertoire collection used for the statistics examples. -/
def exEda : RepertoireCollection := [("a", [mkRow "CASSF"])]

/-- First Jaccard example repertoire: five distinct sequences. -/
def exJacA : SequenceTable :=
  [mkRow "s1", mkRow "s2", mkRow "s3", mkRow "s4", mkRow "s5"]

/-- Second Jaccard example repertoire: shares one sequence with the first. -/
def exJacB : SequenceTable := [mkRow "s5", mkRow "s6"]

/-- Two repertoires sharing exactly one unique sequence out of a
six-sequence union (the repository's own Jaccard test scenario). -/
def exJac : RepertoireCollection := [("test_2", exJacA), ("test_3", exJacB)]

theorem checkLoop_eq_find (id : String) (l : List String) :
    checkLoop id l = l.find? (fun d => containsSub d id) := by
  induction l with
  | nil => rfl
  | cons d rest ih =>
    by_cases h : containsSub d id = true
    · simp [checkLoop, h, List.find?_cons]
    · simp only [Bool.not_eq_true] at h
      simp [checkLoop, h, List.find?_cons]
      simp [ih]

/-- C3: `check_for_support` returns the first entry of the fixed disease
vocabulary (in vocabulary order) that is a substring of the id, and
raises `DiseaseNotSupportedError` (modelled as `none`) if and only if no
vocabulary entry is a substring of the id. -/
theorem check_for_support_first_match (id : String) :
    check_for_support id =
      supported_disease_types.find? (fun d => containsSub d id) ∧
    (check_for_support id = none ↔
      ∀ d ∈ supported_disease_types, ¬ containsSub d id = true) := by
  refine ⟨checkLoop_eq_find id _, ?_⟩
  rw [check_for_support, checkLoop_eq_find]
  exact List.find?_eq_none

/-- C4: the length filter first strips surrounding whitespace from each
`AASeq` and then keeps exactly the rows whose stripped length `L`
satisfies `10 ≤ L ≤ 24` (inclusive); in particular a row whose stripped
length equals 10 or 24 is kept, and the bound is measured on the
stripped value. -/
theorem assert_size_keeps_stripped_in_bounds (t : SequenceTable) :
    (∀ r, r ∈ assertSizeTable t ↔
      ∃ r₀ ∈ t, r = stripRow r₀ ∧
        10 ≤ (stripRow r₀).AASeq.length ∧ (stripRow r₀).AASeq.length ≤ 24) ∧
    (∀ r₀ ∈ t, ((stripRow r₀).AASeq.length = 10 ∨ (stripRow r₀).AASeq.length = 24) →
      stripRow r₀ ∈ assertSizeTable t) := by
  have hmem : ∀ r, r ∈ assertSizeTable t ↔
      ∃ r₀ ∈ t, r = stripRow r₀ ∧
        10 ≤ (stripRow r₀).AASeq.length ∧ (stripRow r₀).AASeq.length ≤ 24 := by
    intro r
    simp only [assertSizeTable, List.mem_filter, List.mem_map, Bool.and_eq_true,
      decide_eq_true_eq, min_seq_size, max_seq_size]
    constructor
    · rintro ⟨⟨r₀, hr₀, rfl⟩, h1, h2⟩
      exact ⟨r₀, hr₀, rfl, h1, h2⟩
    · rintro ⟨r₀, hr₀, rfl, h1, h2⟩
      exact ⟨⟨r₀, hr₀, rfl⟩, h1, h2⟩
  refine ⟨hmem, ?_⟩
  intro r₀ hr₀ hlen
  refine (hmem (stripRow r₀)).2 ⟨r₀, hr₀, rfl, ?_, ?_⟩
  · rcases hlen with h | h <;> omega
  · rcases hlen with h | h <;> omega

/-- C10: each of the three row-filtering cleaning stages preserves the
repertoire key list exactly — no repertoire is added or removed, even
when a filter empties a repertoire's table. -/
theorem cleaning_preserves_keys (chars : List Char) (data : RepertoireCollection) :
    (remove_special_characters chars data).map Prod.fst = data.map Prod.fst ∧
    (assert_size data).map Prod.fst = data.map Prod.fst ∧
    (remove_incomplete_seqs data).map Prod.fst = data.map Prod.fst := by
  refine ⟨?_, ?_, ?_⟩ <;>
    simp [remove_special_characters, assert_size, remove_incomplete_seqs,
      List.map_map, Function.comp_def]

theorem join_files_go_spec (cleaned : RepertoireCollection) (ks : List String) :
    join_files_go cleaned ks =
      ((ks.takeWhile (fun k => (check_for_support k).isSome)).map (save_entry cleaned),
       ks.any (fun k => (check_for_support k).isNone)) := by
  induction ks with
  | nil => rfl
  | cons k rest ih =>
    cases h : check_for_support k with
    | none => simp [join_files_go, h, List.takeWhile_cons, List.any_cons]
    | some d =>
      simp [join_files_go, h, List.takeWhile_cons, List.any_cons, ih, save_entry]

/-- C2 counterexample: on a collection whose first id is supported and
whose second id matches no vocabulary entry, `join_files` does raise the
unsupported-label error, but a per-disease table has already been
persisted before the error surfaces — the output trace is not empty. -/
theorem join_files_partial_output_cex :
    check_for_support "zzz" = none ∧
    (join_files exBadCollection).2 = true ∧
    (join_files exBadCollection).1 ≠ [] := by
  refine ⟨by decide, by decide, by decide⟩

/-- C2 amended: `join_files` raises the unsupported-label error iff some
repertoire id matches no Disease Vocabulary entry, and the persisted
output consists of exactly the per-disease saves for the ids strictly
before the first unmatched id in collection order (so output is empty
only when the very first id is already unmatched; ids processed earlier
leave their tables persisted when the error surfaces). -/
theorem join_files_error_and_partial_output (cleaned : RepertoireCollection) :
    ((join_files cleaned).2 = true ↔
      ∃ k ∈ cleaned.map Prod.fst, check_for_support k = none) ∧
    (join_files cleaned).1 =
      ((cleaned.map Prod.fst).takeWhile (fun k => (check_for_support k).isSome)).map
        (save_entry cleaned) := by
  rw [join_files, join_files_go_spec]
  refine ⟨?_, rfl⟩
  rw [List.any_eq_true]
  simp [Option.isNone_iff_eq_none]

theorem insertionSort_eq_of_perm (ks₁ ks₂ : List String) (hp : ks₁.Perm ks₂) :
    List.insertionSort (fun a b => a ≤ b) ks₁ =
      List.insertionSort (fun a b => a ≤ b) ks₂ := by
  apply List.eq_of_perm_of_sorted (r := fun a b : String => a ≤ b)
  · exact ((List.perm_insertionSort _ ks₁).trans hp).trans
      (List.perm_insertionSort _ ks₂).symm
  · exact List.sorted_insertionSort _ ks₁
  · exact List.sorted_insertionSort _ ks₂

/-- C8: target assignment enumerates the repertoire ids in ascending
lexicographic order and assigns consecutive integers 0, 1, 2, …; any two
presentations of the same id set produce the identical id→integer
mapping. -/
theorem create_targets_stable (ks₁ ks₂ : List String)
    (hp : ks₁.Perm ks₂) (hnd : ks₁.Nodup) :
    create_targets ks₁ = create_targets ks₂ ∧
    (create_targets ks₁).map Prod.snd = List.range ks₁.length ∧
    List.Sorted (fun a b : String => a < b) ((create_targets ks₁).map Prod.fst) ∧
    ((create_targets ks₁).map Prod.fst).Perm ks₁ := by
  refine ⟨?_, ?_, ?_, ?_⟩
  · rw [create_targets, create_targets, insertionSort_eq_of_perm ks₁ ks₂ hp]
  · have h1 : ∀ l : List String,
        (((l.enum).map (fun e : Nat × String => (e.2, e.1))).map Prod.snd) =
          (l.enum).map Prod.fst := by
      intro l
      simp [List.map_map, Function.comp_def]
    rw [create_targets, h1, List.enum_map_fst,
      (List.perm_insertionSort (fun a b : String => a ≤ b) ks₁).length_eq]
  · have h2 : ∀ l : List String,
        (((l.enum).map (fun e : Nat × String => (e.2, e.1))).map Prod.fst) = l := by
      intro l
      simp [List.map_map, Function.comp_def]
    rw [create_targets, h2]
    exact (List.sorted_insertionSort _ ks₁).lt_of_le
      ((List.perm_insertionSort _ ks₁).nodup_iff.mpr hnd)
  · have h2 : ∀ l : List String,
        (((l.enum).map (fun e : Nat × String => (e.2, e.1))).map Prod.fst) = l := by
      intro l
      simp [List.map_map, Function.comp_def]
    rw [create_targets, h2]
    exact List.perm_insertionSort _ ks₁

/-- C8 witness: the two presentations `["b", "a"]` and `["a", "b"]` of
the same id set get the identical mapping `a ↦ 0, b ↦ 1`. -/
theorem create_targets_stable_witness :
    (["b", "a"] : List String).Perm ["a", "b"] ∧
    (["b", "a"] : List String).Nodup ∧
    (create_targets ["b", "a"] = create_targets ["a", "b"] ∧
     (create_targets ["b", "a"]).map Prod.snd = List.range (["b", "a"] : List String).length ∧
     List.Sorted (fun a b : String => a < b) ((create_targets ["b", "a"]).map Prod.fst) ∧
     ((create_targets ["b", "a"]).map Prod.fst).Perm ["b", "a"]) :=
  ⟨by decide, by decide,
    create_targets_stable ["b", "a"] ["a", "b"] (by decide) (by decide)⟩

theorem dropWhile_head_false {α : Type} {p : α → Bool} {l : List α} {a : α}
    (h : (l.dropWhile p).head? = some a) : p a = false := by
  have h2 := List.head?_dropWhile_not p l
  rw [h] at h2
  exact h2

theorem dropWhile_dropWhile {α : Type} (p : α → Bool) (l : List α) :
    (l.dropWhile p).dropWhile p = l.dropWhile p := by
  induction l with
  | nil => simp
  | cons a t ih =>
    by_cases h : p a = true
    · simp [List.dropWhile, h, ih]
    · simp only [Bool.not_eq_true] at h
      simp [List.dropWhile, h]

theorem dropWhile_eq_self_of_head {α : Type} {p : α → Bool} {l : List α}
    (h : ∀ a, l.head? = some a → p a = false) : l.dropWhile p = l := by
  cases l with
  | nil => rfl
  | cons a t =>
    have h2 := h a rfl
    simp [List.dropWhile, h2]

theorem getLast?_of_suffix {α : Type} {l₁ l₂ : List α} (h : l₁ <:+ l₂)
    (hne : l₁ ≠ []) : l₂.getLast? = l₁.getLast? := by
  obtain ⟨t, rfl⟩ := h
  rw [List.getLast?_append]
  cases h1 : l₁.getLast? with
  | none =>
    exfalso
    exact hne (List.getLast?_eq_none_iff.mp h1)
  | some b => simp

theorem stripChars_idem (l : List Char) :
    stripChars (stripChars l) = stripChars l := by
  have hfix : ((l.dropWhile wsp).reverse.dropWhile wsp).reverse.dropWhile wsp =
      ((l.dropWhile wsp).reverse.dropWhile wsp).reverse := by
    apply dropWhile_eq_self_of_head
    intro a ha
    rw [List.head?_reverse] at ha
    have hvne : (l.dropWhile wsp).reverse.dropWhile wsp ≠ [] := by
      intro hv0
      rw [hv0] at ha
      simp at ha
    have hsuf : (l.dropWhile wsp).reverse.dropWhile wsp <:+ (l.dropWhile wsp).reverse :=
      List.dropWhile_suffix wsp
    have hlast : ((l.dropWhile wsp).reverse).getLast? = some a := by
      rw [getLast?_of_suffix hsuf hvne]
      exact ha
    rw [List.getLast?_reverse] at hlast
    exact dropWhile_head_false hlast
  show ((((stripChars l).dropWhile wsp).reverse).dropWhile wsp).reverse = stripChars l
  rw [stripChars, hfix, List.reverse_reverse, dropWhile_dropWhile]

theorem pyStrip_idem (s : String) : pyStrip (pyStrip s) = pyStrip s := by
  show String.mk (stripChars (stripChars s.data)) = String.mk (stripChars s.data)
  rw [stripChars_idem]

theorem stripRow_idem (r : Row) : stripRow (stripRow r) = stripRow r := by
  cases r
  simp [stripRow, pyStrip_idem]

theorem assertSizeTable_idem (t : SequenceTable) :
    assertSizeTable (assertSizeTable t) = assertSizeTable t := by
  have hmap : (assertSizeTable t).map stripRow = assertSizeTable t := by
    have h : ∀ r ∈ assertSizeTable t, stripRow r = r := by
      intro r hr
      have hr2 : r ∈ t.map stripRow := List.mem_of_mem_filter hr
      obtain ⟨r₀, _, rfl⟩ := List.mem_map.mp hr2
      exact stripRow_idem r₀
    calc (assertSizeTable t).map stripRow
        = (assertSizeTable t).map id := List.map_congr_left h
      _ = assertSizeTable t := List.map_id _
  show ((assertSizeTable t).map stripRow).filter _ = assertSizeTable t
  rw [hmap, assertSizeTable, List.filter_filter]
  apply List.filter_congr
  intro r _
  cases h1 : decide (min_seq_size ≤ r.AASeq.length) <;>
    cases h2 : decide (r.AASeq.length ≤ max_seq_size) <;> rfl

/-- C5: applying the length filter (`assert_size`) twice yields exactly
the same collection as applying it once, including the
whitespace-stripping rewrite of `AASeq`. -/
theorem assert_size_idempotent (data : RepertoireCollection) :
    assert_size (assert_size data) = assert_size data := by
  unfold assert_size
  rw [List.map_map]
  apply List.map_congr_left
  intro e _
  simp [Function.comp_def, assertSizeTable_idem]

theorem find?_upd_self {α : Type} (m : List (String × α)) (k : String) (v : α)
    (hm : ∃ e ∈ m, e.1 = k) :
    (m.map (fun e => if e.1 == k then (k, v) else e)).find?
      (fun e => e.1 == k) = some (k, v) := by
  induction m with
  | nil => obtain ⟨e, he, _⟩ := hm; simp at he
  | cons x t ih =>
    by_cases hx : x.1 = k
    · have hb : (x.1 == k) = true := beq_iff_eq.mpr hx
      simp only [List.map_cons, hb, if_pos]
      exact List.find?_cons_of_pos _ (by simp)
    · have hb : (x.1 == k) = false := beq_eq_false_iff_ne.mpr hx
      simp only [List.map_cons, hb, Bool.false_eq_true, if_neg, if_false]
      rw [List.find?_cons_of_neg _ (by simp [hx])]
      apply ih
      obtain ⟨e, he, hek⟩ := hm
      rcases List.mem_cons.mp he with rfl | ht
      · exact absurd hek hx
      · exact ⟨e, ht, hek⟩

theorem find?_append_single_self {α : Type} (m : List (String × α)) (k : String)
    (v : α) (hm : ∀ e ∈ m, e.1 ≠ k) :
    (m ++ [(k, v)]).find? (fun e => e.1 == k) = some (k, v) := by
  induction m with
  | nil => exact List.find?_cons_of_pos _ (by simp)
  | cons x t ih =>
    rw [List.cons_append,
      List.find?_cons_of_neg _ (by simp [hm x (List.mem_cons_self x t)])]
    exact ih (fun e he => hm e (List.mem_cons_of_mem x he))

theorem lookupS_dset_self {α : Type} (m : List (String × α)) (k : String) (v : α) :
    lookupS (dset m k v) k = some v := by
  rw [dset]
  by_cases hany : m.any (fun e => e.1 == k) = true
  · rw [if_pos hany, lookupS]
    obtain ⟨e, he, hek⟩ := List.any_eq_true.mp hany
    rw [find?_upd_self m k v ⟨e, he, beq_iff_eq.mp hek⟩]
    rfl
  · rw [if_neg hany, lookupS]
    simp only [List.any_eq_true, not_exists, not_and, Bool.not_eq_true] at hany
    rw [find?_append_single_self m k v
      (fun e he => beq_eq_false_iff_ne.mp (hany e he))]
    rfl

theorem find?_upd_other {α : Type} (m : List (String × α)) (k k' : String)
    (v : α) (h : k' ≠ k) :
    (m.map (fun e => if e.1 == k then (k, v) else e)).find? (fun e => e.1 == k') =
      m.find? (fun e => e.1 == k') := by
  induction m with
  | nil => rfl
  | cons x t ih =>
    by_cases hx : x.1 = k
    · have hb : (x.1 == k) = true := beq_iff_eq.mpr hx
      simp only [List.map_cons, hb, if_pos]
      rw [List.find?_cons_of_neg _ (by simp [Ne.symm h]),
        List.find?_cons_of_neg _ (by simp [hx, Ne.symm h]), ih]
    · have hb : (x.1 == k) = false := beq_eq_false_iff_ne.mpr hx
      simp only [List.map_cons, hb, Bool.false_eq_true, if_neg, if_false]
      by_cases hx' : x.1 = k'
      · rw [List.find?_cons_of_pos _ (by simp [hx']),
          List.find?_cons_of_pos _ (by simp [hx'])]
      · rw [List.find?_cons_of_neg _ (by simp [hx']),
          List.find?_cons_of_neg _ (by simp [hx']), ih]

theorem find?_append_single_other {α : Type} (m : List (String × α))
    (k k' : String) (v : α) (h : k' ≠ k) :
    (m ++ [(k, v)]).find? (fun e => e.1 == k') = m.find? (fun e => e.1 == k') := by
  induction m with
  | nil =>
    rw [List.nil_append, List.find?_cons_of_neg _ (by simp [Ne.symm h])]
  | cons x t ih =>
    by_cases hx' : x.1 = k'
    · rw [List.cons_append, List.find?_cons_of_pos _ (by simp [hx']),
        List.find?_cons_of_pos _ (by simp [hx'])]
    · rw [List.cons_append, List.find?_cons_of_neg _ (by simp [hx']),
        List.find?_cons_of_neg _ (by simp [hx']), ih]

theorem lookupS_dset_other {α : Type} (m : List (String × α)) (k k' : String)
    (v : α) (h : k' ≠ k) : lookupS (dset m k v) k' = lookupS m k' := by
  rw [dset]
  by_cases hany : m.any (fun e => e.1 == k) = true
  · rw [if_pos hany, lookupS, find?_upd_other m k k' v h]
    rfl
  · rw [if_neg hany, lookupS, find?_append_single_other m k k' v h]
    rfl

theorem foldl_dset_preserve {s : List (String × Nat)} {t : RepertoireCollection}
    {k : String} (h : ∀ x ∈ t, x.1 ≠ k) :
    lookupS (t.foldl (fun acc e => dset acc e.1 e.2.length) s) k = lookupS s k := by
  induction t generalizing s with
  | nil => rfl
  | cons d t ih =>
    rw [List.foldl_cons]
    rw [ih (fun x hx => h x (List.mem_cons_of_mem d hx))]
    exact lookupS_dset_other s d.1 k d.2.length
      (fun he => h d (List.mem_cons_self d t) he.symm)

theorem count_sequences_lookup (s : List (String × Nat))
    (data : RepertoireCollection) (hnd : (data.map Prod.fst).Nodup) :
    ∀ e ∈ data, lookupS (count_sequences_per_disease s data) e.1 = some e.2.length := by
  induction data generalizing s with
  | nil => intro e he; simp at he
  | cons d t ih =>
    intro e he
    rw [count_sequences_per_disease, List.foldl_cons]
    rcases List.mem_cons.mp he with rfl | ht
    · have hk : ∀ x ∈ t, x.1 ≠ e.1 := by
        intro x hx hxe
        simp only [List.map_cons, List.nodup_cons] at hnd
        exact hnd.1 (hxe ▸ List.mem_map_of_mem Prod.fst hx)
      rw [foldl_dset_preserve hk]
      exact lookupS_dset_self s e.1 e.2.length
    · simp only [List.map_cons, List.nodup_cons] at hnd
      exact ih (dset s d.1 d.2.length) hnd.2 e ht

theorem totalFromCounts_some (counts : List (String × Nat))
    (data : RepertoireCollection)
    (h : ∀ e ∈ data, lookupS counts e.1 = some e.2.length) :
    totalFromCounts counts data = some (totalSeqs data) := by
  have hgen : ∀ acc : Nat,
      data.foldlM (fun acc e => (lookupS counts e.1).map (fun n => acc + n)) acc =
        some (acc + totalSeqs data) := by
    induction data with
    | nil => intro acc; simp [totalSeqs]
    | cons d t ih =>
      intro acc
      rw [List.foldlM_cons, h d (List.mem_cons_self d t)]
      have ih2 := ih (fun e he => h e (List.mem_cons_of_mem d he)) (acc + d.2.length)
      have hstep : ((some d.2.length).map (fun n => acc + n) >>=
          fun a => t.foldlM (fun acc e => (lookupS counts e.1).map (fun n => acc + n)) a) =
          t.foldlM (fun acc e => (lookupS counts e.1).map (fun n => acc + n))
            (acc + d.2.length) := rfl
      rw [hstep, ih2, totalSeqs, totalSeqs, List.map_cons, List.sum_cons, Nat.add_assoc]
  have h0 := hgen 0
  rw [totalFromCounts, h0, Nat.zero_add]

theorem totalFromCounts_empty_state (data : RepertoireCollection)
    (h : data ≠ []) : totalFromCounts [] data = none := by
  cases data with
  | nil => exact absurd rfl h
  | cons d t => simp [totalFromCounts, List.foldlM_cons, lookupS]

/-- C1 counterexample: on the same one-repertoire input, the
sequence-length metric fails (`KeyError`) on a fresh analyzer but
succeeds after `count_sequences_per_disease` has run — its result
depends on which metrics were computed before, i.e. on prior instance
state, refuting the purity claim. -/
theorem seq_len_metrics_state_cex :
    count_sequence_length_metrics [] exEda = none ∧
    (count_sequence_length_metrics
        (count_sequences_per_disease [] exEda) exEda).isSome = true ∧
    count_sequence_length_metrics [] exEda ≠
      count_sequence_length_metrics (count_sequences_per_disease [] exEda) exEda := by
  have h1 : count_sequence_length_metrics [] exEda = none := by decide
  have h2 : (count_sequence_length_metrics
      (count_sequences_per_disease [] exEda) exEda).isSome = true := by decide
  refine ⟨h1, h2, ?_⟩
  intro h
  rw [← h, h1] at h2
  simp at h2

/-- C1 amended: sequence counts, gene usage, Jaccard index and
positional amino-acid composition are computed from the input collection
alone, but the sequence-length metric additionally reads the
`sequence_counts` instance state populated by a prior
`count_sequences_per_disease` call: (a) that prior call stores the
correct row count for every input repertoire irrespective of earlier
state; (b) after it has run on the same collection (with at least one
sequence present) the length metric succeeds; (c) on a fresh instance
the length metric fails with `KeyError` for any non-empty input. -/
theorem seq_len_metrics_state_dependence (s : List (String × Nat))
    (data : RepertoireCollection) (hnd : (data.map Prod.fst).Nodup) :
    (∀ e ∈ data,
      lookupS (count_sequences_per_disease s data) e.1 = some e.2.length) ∧
    (0 < totalSeqs data →
      (count_sequence_length_metrics
        (count_sequences_per_disease s data) data).isSome = true) ∧
    (data ≠ [] → count_sequence_length_metrics [] data = none) := by
  refine ⟨count_sequences_lookup s data hnd, ?_, ?_⟩
  · intro hpos
    have h1 := totalFromCounts_some (count_sequences_per_disease s data) data
      (count_sequences_lookup s data hnd)
    rw [count_sequence_length_metrics, h1]
    have hne : ¬ totalSeqs data = 0 := by omega
    simp [hne]
  · intro hne
    rw [count_sequence_length_metrics, totalFromCounts_empty_state data hne]

/-- C1 witness for the amended statement: a stale one-entry state,
a one-repertoire collection. -/
theorem seq_len_metrics_state_dependence_witness :
    ((exEda.map Prod.fst).Nodup) ∧
    ((∀ e ∈ exEda,
      lookupS (count_sequences_per_disease [("zz", 5)] exEda) e.1 = some e.2.length) ∧
    (0 < totalSeqs exEda →
      (count_sequence_length_metrics
        (count_sequences_per_disease [("zz", 5)] exEda) exEda).isSome = true) ∧
    (exEda ≠ [] → count_sequence_length_metrics [] exEda = none)) :=
  ⟨by decide, seq_len_metrics_state_dependence [("zz", 5)] exEda (by decide)⟩

theorem key_inj {l : RepertoireCollection} (hnd : (l.map Prod.fst).Nodup)
    {p q : String × SequenceTable} (hp : p ∈ l) (hq : q ∈ l) (h : p.1 = q.1) :
    p = q := by
  induction l with
  | nil => simp at hp
  | cons x t ih =>
    simp only [List.map_cons, List.nodup_cons] at hnd
    rcases List.mem_cons.mp hp with rfl | hpt
    · rcases List.mem_cons.mp hq with rfl | hqt
      · rfl
      · exact absurd (h ▸ List.mem_map_of_mem Prod.fst hqt) hnd.1
    · rcases List.mem_cons.mp hq with rfl | hqt
      · exact absurd (h ▸ List.mem_map_of_mem Prod.fst hpt) hnd.1
      · exact ih hnd.2 hpt hqt

theorem interCount_eq (ta tb : SequenceTable) :
    interCount ta tb = ((seqsOf ta).toFinset ∩ (seqsOf tb).toFinset).card := by
  rw [interCount]
  have hnd : ((seqsOf ta).dedup.filter (fun s => decide (s ∈ seqsOf tb))).Nodup :=
    (List.nodup_dedup _).filter _
  rw [← List.toFinset_card_of_nodup hnd, List.toFinset_filter]
  congr 1
  ext x
  simp [List.mem_toFinset, List.mem_dedup, Finset.mem_filter, Finset.mem_inter]

theorem unionCount_eq (ta tb : SequenceTable) :
    unionCount ta tb = ((seqsOf ta).toFinset ∪ (seqsOf tb).toFinset).card := by
  rw [unionCount, ← List.toFinset_append, List.card_toFinset]

theorem jaccardVal_eq_finset (ta tb : SequenceTable) :
    jaccardVal ta tb = jaccardFinset ta tb := by
  rw [jaccardVal, jaccardFinset, interCount_eq, unionCount_eq]

theorem jaccardVal_nonneg (ta tb : SequenceTable) : 0 ≤ jaccardVal ta tb := by
  rw [jaccardVal]
  exact div_nonneg (Nat.cast_nonneg _) (Nat.cast_nonneg _)

theorem jaccardVal_le_one (ta tb : SequenceTable)
    (h : unionCount ta tb ≠ 0) : jaccardVal ta tb ≤ 1 := by
  rw [jaccardVal, div_le_one (by exact_mod_cast Nat.pos_of_ne_zero h)]
  have hle : interCount ta tb ≤ unionCount ta tb := by
    rw [interCount_eq, unionCount_eq]
    exact Finset.card_le_card
      (Finset.inter_subset_left.trans Finset.subset_union_left)
  exact_mod_cast hle

/-- C6: the computed Jaccard structure has one outer entry per
repertoire; each inner list holds an entry for every *other* repertoire
of the collection and never a self-pair; every stored value equals
`|set(A) ∩ set(B)| / |set(A) ∪ set(B)|` over the de-duplicated sequence
sets and lies in `[0, 1]`.  (The hypothesis `hdef` excludes the
empty-union pairs on which the Python division would raise
`ZeroDivisionError` instead of storing anything.) -/
theorem jaccard_structure (data : RepertoireCollection)
    (hnd : (data.map Prod.fst).Nodup)
    (hdef : ∀ p ∈ data, ∀ q ∈ data, p.1 ≠ q.1 → unionCount p.2 q.2 ≠ 0) :
    ((compute_jaccard_index data).map Prod.fst = data.map Prod.fst) ∧
    ∀ p ∈ data, ∀ row, (p.1, row) ∈ compute_jaccard_index data →
      ((∀ q ∈ data, q.1 ≠ p.1 → (q.1, jaccardFinset p.2 q.2) ∈ row) ∧
       (∀ e ∈ row, e.1 ≠ p.1 ∧ 0 ≤ e.2 ∧ e.2 ≤ 1)) := by
  constructor
  · simp [compute_jaccard_index, List.map_map, Function.comp_def]
  · intro p hp row hrow
    obtain ⟨p2, hp2, heq⟩ := List.mem_map.mp hrow
    rw [Prod.mk.injEq] at heq
    have hpp : p2 = p := key_inj hnd hp2 hp heq.1
    subst hpp
    have hrow2 : row = (data.filter (fun q => !(q.1 == p2.1))).map
        (fun q => (q.1, jaccardVal p2.2 q.2)) := heq.2.symm
    subst hrow2
    constructor
    · intro q hq hq1
      rw [← jaccardVal_eq_finset]
      exact List.mem_map_of_mem _
        (List.mem_filter.mpr ⟨hq, by simp [hq1]⟩)
    · intro e he
      obtain ⟨q, hqf, rfl⟩ := List.mem_map.mp he
      have hq := List.mem_filter.mp hqf
      have hqne : q.1 ≠ p2.1 := by
        have h2 := hq.2
        simp only [Bool.not_eq_eq_eq_not, Bool.not_true, beq_eq_false_iff_ne] at h2
        exact h2
      exact ⟨hqne, jaccardVal_nonneg _ _,
        jaccardVal_le_one _ _ (hdef p2 hp q hq.1 (Ne.symm hqne))⟩

/-- C6 witness: two repertoires sharing one unique sequence out of a
six-sequence union (Jaccard 1/6). -/
theorem jaccard_structure_witness :
    ((exJac.map Prod.fst).Nodup) ∧
    (∀ p ∈ exJac, ∀ q ∈ exJac, p.1 ≠ q.1 → unionCount p.2 q.2 ≠ 0) ∧
    (((compute_jaccard_index exJac).map Prod.fst = exJac.map Prod.fst) ∧
     ∀ p ∈ exJac, ∀ row, (p.1, row) ∈ compute_jaccard_index exJac →
       ((∀ q ∈ exJac, q.1 ≠ p.1 → (q.1, jaccardFinset p.2 q.2) ∈ row) ∧
        (∀ e ∈ row, e.1 ≠ p.1 ∧ 0 ≤ e.2 ∧ e.2 ≤ 1))) :=
  ⟨by decide, by decide, jaccard_structure exJac (by decide) (by decide)⟩

theorem any_key_iff (m : List (String × Nat)) (key : String) :
    m.any (fun e => e.1 == key) = true ↔ key ∈ m.map Prod.fst := by
  rw [List.any_eq_true]
  constructor
  · rintro ⟨e, he, hek⟩
    exact List.mem_map.mpr ⟨e, he, beq_iff_eq.mp hek⟩
  · intro h
    obtain ⟨e, he, hek⟩ := List.mem_map.mp h
    exact ⟨e, he, beq_iff_eq.mpr hek⟩

theorem incr_eq_none_iff (m : List (String × Nat)) (key : String) :
    incr m key = none ↔ key ∉ m.map Prod.fst := by
  rw [incr]
  by_cases h : key ∈ m.map Prod.fst
  · rw [if_pos ((any_key_iff m key).mpr h)]
    simp [h]
  · rw [if_neg (fun hc => h ((any_key_iff m key).mp hc))]
    simp [h]

theorem incr_some_of_mem {m : List (String × Nat)} {key : String}
    (h : key ∈ m.map Prod.fst) :
    incr m key = some (m.map (fun e => if e.1 == key then (e.1, e.2 + 1) else e)) := by
  rw [incr, if_pos ((any_key_iff m key).mpr h)]

theorem incr_keys {m m' : List (String × Nat)} {key : String}
    (h : incr m key = some m') : m'.map Prod.fst = m.map Prod.fst := by
  rw [incr] at h
  by_cases hin : m.any (fun e => e.1 == key) = true
  · rw [if_pos hin] at h
    injection h with h1
    rw [← h1, List.map_map]
    apply List.map_congr_left
    intro e _
    simp only [Function.comp_def]
    split <;> rfl
  · rw [if_neg hin] at h
    cases h

theorem incr_keep {m m' : List (String × Nat)} {key wz : String} {v : Nat}
    (h : incr m key = some m') (hmem : (wz, v) ∈ m) (hne : key ≠ wz) :
    (wz, v) ∈ m' := by
  rw [incr] at h
  by_cases hin : m.any (fun e => e.1 == key) = true
  · rw [if_pos hin] at h
    injection h with h1
    rw [← h1]
    have hf : (fun e : String × Nat => if e.1 == key then (e.1, e.2 + 1) else e)
        (wz, v) = (wz, v) := by
      simp [beq_eq_false_iff_ne.mpr (Ne.symm hne)]
    exact hf ▸ List.mem_map_of_mem _ hmem
  · rw [if_neg hin] at h
    cases h

theorem windows_mem {k : Nat} :
    ∀ {l w : List Char}, w ∈ windows k l → w.length = k ∧ ∀ c ∈ w, c ∈ l := by
  intro l
  induction l with
  | nil =>
    intro w hw
    simp [windows] at hw
  | cons c rest ih =>
    intro w hw
    rw [windows] at hw
    by_cases hlen : k ≤ rest.length + 1
    · rw [if_pos hlen] at hw
      rcases List.mem_cons.mp hw with rfl | hwt
      · refine ⟨?_, fun x hx => List.take_subset _ _ hx⟩
        rw [List.length_take]
        simp only [List.length_cons]
        omega
      · obtain ⟨h1, h2⟩ := ih hwt
        exact ⟨h1, fun x hx => List.mem_cons_of_mem c (h2 x hx)⟩
    · rw [if_neg hlen] at hw
      simp at hw

theorem windows_cover {k : Nat} (hk : 0 < k) :
    ∀ {l : List Char} {c : Char}, k ≤ l.length → c ∈ l →
      ∃ w ∈ windows k l, c ∈ w := by
  intro l
  induction l with
  | nil =>
    intro c _ hc
    simp at hc
  | cons a rest ih =>
    intro c hlen hc
    rw [windows, if_pos (by simpa using hlen)]
    rcases List.mem_cons.mp hc with rfl | hct
    · refine ⟨(c :: rest).take k, List.mem_cons_self _ _, ?_⟩
      cases k with
      | zero => omega
      | succ n =>
        rw [List.take_succ_cons]
        exact List.mem_cons_self _ _
    · by_cases hrest : k ≤ rest.length
      · obtain ⟨w, hw, hcw⟩ := ih hrest hct
        exact ⟨w, List.mem_cons_of_mem _ hw, hcw⟩
      · refine ⟨(a :: rest).take k, List.mem_cons_self _ _, ?_⟩
        rw [List.take_of_length_le (by simp only [List.length_cons]; omega)]
        exact List.mem_cons_of_mem a hct

theorem kmerProduct_mem (k : Nat) : ∀ w : List Char,
    w ∈ kmerProduct k ↔ w.length = k ∧ ∀ c ∈ w, c ∈ aminoAlphabet := by
  induction k with
  | zero =>
    intro w
    constructor
    · intro hw
      simp only [kmerProduct, List.mem_singleton] at hw
      subst hw
      simp
    · rintro ⟨h1, _⟩
      rw [List.length_eq_zero] at h1
      subst h1
      simp [kmerProduct]
  | succ n ih =>
    intro w
    rw [kmerProduct]
    simp only [List.mem_flatMap, List.mem_map]
    constructor
    · rintro ⟨c, hc, t, ht, rfl⟩
      obtain ⟨h1, h2⟩ := (ih t).mp ht
      refine ⟨by simp [h1], ?_⟩
      intro x hx
      rcases List.mem_cons.mp hx with rfl | hxt
      · exact hc
      · exact h2 x hxt
    · rintro ⟨h1, h2⟩
      cases w with
      | nil => simp at h1
      | cons c t =>
        refine ⟨c, h2 c (List.mem_cons_self c t), t, ?_, rfl⟩
        refine (ih t).mpr ⟨?_, ?_⟩
        · simpa using h1
        · intro x hx
          exact h2 x (List.mem_cons_of_mem c hx)

theorem kmerVocab_mem (k : Nat) (w : List Char) :
    String.mk w ∈ kmerVocab k ↔ w ∈ kmerProduct k := by
  rw [kmerVocab]
  constructor
  · intro h
    obtain ⟨l, hl, he⟩ := List.mem_map.mp h
    have hd : l = w := by
      have h2 := congrArg String.data he
      simpa using h2
    exact hd ▸ hl
  · intro h
    exact List.mem_map_of_mem _ h

theorem base_kmer_counter_keys (k : Nat) :
    (base_kmer_counter k).map Prod.fst = kmerVocab k := by
  rw [base_kmer_counter, List.map_map]
  simp [Function.comp_def]

theorem incrAll_keys : ∀ {ws : List (List Char)} {m m' : List (String × Nat)},
    incrAll m ws = some m' → m'.map Prod.fst = m.map Prod.fst := by
  intro ws
  induction ws with
  | nil =>
    intro m m' h
    rw [incrAll, List.foldlM_nil] at h
    injection h with h1
    rw [h1]
  | cons w t ih =>
    intro m m' h
    rw [incrAll, List.foldlM_cons] at h
    cases hi : incr m (String.mk w) with
    | none =>
      rw [hi] at h
      cases h
    | some m1 =>
      rw [hi] at h
      have h2 : incrAll m1 t = some m' := h
      rw [ih h2, incr_keys hi]

theorem incrAll_some : ∀ {ws : List (List Char)} {m : List (String × Nat)},
    (∀ w ∈ ws, String.mk w ∈ m.map Prod.fst) →
    ∃ m', incrAll m ws = some m' := by
  intro ws
  induction ws with
  | nil =>
    intro m _
    exact ⟨m, rfl⟩
  | cons w t ih =>
    intro m h
    have hw := h w (List.mem_cons_self w t)
    rw [incrAll, List.foldlM_cons, incr_some_of_mem hw]
    have hkeys := incr_keys (incr_some_of_mem hw)
    obtain ⟨m', hm'⟩ := ih (fun x hx => by
      rw [hkeys]
      exact h x (List.mem_cons_of_mem w hx))
    exact ⟨m', hm'⟩

theorem incrAll_none : ∀ {ws : List (List Char)} {m : List (String × Nat)},
    (∃ w ∈ ws, String.mk w ∉ m.map Prod.fst) → incrAll m ws = none := by
  intro ws
  induction ws with
  | nil =>
    rintro m ⟨w, hw, _⟩
    simp at hw
  | cons w t ih =>
    rintro m ⟨x, hx, hxm⟩
    rw [incrAll, List.foldlM_cons]
    rcases List.mem_cons.mp hx with rfl | hxt
    · rw [(incr_eq_none_iff m (String.mk x)).mpr hxm]
      rfl
    · cases hi : incr m (String.mk w) with
      | none => rfl
      | some m1 =>
        have hx1 : String.mk x ∉ m1.map Prod.fst := by
          rw [incr_keys hi]
          exact hxm
        exact ih ⟨x, hxt, hx1⟩

theorem incrAll_keep : ∀ {ws : List (List Char)} {m m' : List (String × Nat)}
    {wz : String} {v : Nat}, incrAll m ws = some m' → (wz, v) ∈ m →
    (∀ x ∈ ws, String.mk x ≠ wz) → (wz, v) ∈ m' := by
  intro ws
  induction ws with
  | nil =>
    intro m m' wz v h hm _
    rw [incrAll, List.foldlM_nil] at h
    injection h with h1
    rw [← h1]
    exact hm
  | cons w t ih =>
    intro m m' wz v h hm hne
    rw [incrAll, List.foldlM_cons] at h
    cases hi : incr m (String.mk w) with
    | none =>
      rw [hi] at h
      cases h
    | some m1 =>
      rw [hi] at h
      have h2 : incrAll m1 t = some m' := h
      have hm1 : (wz, v) ∈ m1 := incr_keep hi hm (hne w (List.mem_cons_self w t))
      exact ih h2 hm1 (fun x hx => hne x (List.mem_cons_of_mem w hx))

theorem count_kmers_fold (k : Nat) : ∀ (seqs : List String) (m : List (String × Nat)),
    (∀ s ∈ seqs, ∀ w ∈ windows k s.data, String.mk w ∈ m.map Prod.fst) →
    ∃ m', seqs.foldlM (fun m s => incrAll m (windows k s.data)) m = some m' ∧
      m'.map Prod.fst = m.map Prod.fst ∧
      (∀ wz v, (wz, v) ∈ m →
        (∀ s ∈ seqs, ∀ w ∈ windows k s.data, String.mk w ≠ wz) → (wz, v) ∈ m') := by
  intro seqs
  induction seqs with
  | nil =>
    intro m _
    exact ⟨m, rfl, rfl, fun wz v hm _ => hm⟩
  | cons s t ih =>
    intro m h
    obtain ⟨m1, hm1⟩ := incrAll_some (h s (List.mem_cons_self s t))
    have hkeys1 := incrAll_keys hm1
    obtain ⟨m', hm', hkeys', hkeep'⟩ := ih m1 (fun x hx w hw => by
      rw [hkeys1]
      exact h x (List.mem_cons_of_mem s hx) w hw)
    refine ⟨m', ?_, by rw [hkeys', hkeys1], ?_⟩
    · rw [List.foldlM_cons, hm1]
      exact hm'
    · intro wz v hm2 hne
      have hm1mem : (wz, v) ∈ m1 :=
        incrAll_keep hm1 hm2 (fun x hx => hne s (List.mem_cons_self s t) x hx)
      exact hkeep' wz v hm1mem
        (fun x hx w hw => hne x (List.mem_cons_of_mem s hx) w hw)

theorem count_kmers_fold_none (k : Nat) : ∀ (seqs : List String)
    (m : List (String × Nat)),
    (∃ s ∈ seqs, ∃ w ∈ windows k s.data, String.mk w ∉ m.map Prod.fst) →
    seqs.foldlM (fun m s => incrAll m (windows k s.data)) m = none := by
  intro seqs
  induction seqs with
  | nil =>
    rintro m ⟨s, hs, _⟩
    simp at hs
  | cons s t ih =>
    rintro m ⟨x, hx, w, hw, hwm⟩
    rw [List.foldlM_cons]
    rcases List.mem_cons.mp hx with rfl | hxt
    · rw [incrAll_none ⟨w, hw, hwm⟩]
      rfl
    · cases hi : incrAll m (windows k s.data) with
      | none => rfl
      | some m1 =>
        have hwm1 : String.mk w ∉ m1.map Prod.fst := by
          rw [incrAll_keys hi]
          exact hwm
        exact ih m1 ⟨x, hxt, w, hw, hwm1⟩

set_option maxRecDepth 20000 in
/-- C7: for k = 2 over the canonical alphabet, the count row produced
for any subsample (of canonical sequences) carries exactly the 400
vocabulary 2-mers as keys, in the fixed vocabulary order, plus a single
trailing `target` entry (401 entries total); a vocabulary 2-mer that
occurs in no window of the subsample is present with count 0. -/
theorem kmer_row_completeness (seqs : List String) (tv : Nat)
    (h : ∀ s ∈ seqs, ∀ c ∈ s.data, c ∈ aminoAlphabet) :
    ∃ m, count_kmers 2 (base_kmer_counter 2) seqs = some m ∧
      m.map Prod.fst = kmerVocab 2 ∧
      (kmerVocab 2).length = 400 ∧
      (add_target m tv).map Prod.fst = kmerVocab 2 ++ ["target"] ∧
      (add_target m tv).length = 401 ∧
      (∀ w ∈ kmerVocab 2,
        (∀ s ∈ seqs, ∀ win ∈ windows 2 s.data, String.mk win ≠ w) → (w, 0) ∈ m) := by
  have hwin : ∀ s ∈ seqs, ∀ w ∈ windows 2 s.data,
      String.mk w ∈ (base_kmer_counter 2).map Prod.fst := by
    intro s hs w hw
    obtain ⟨hlen, hsub⟩ := windows_mem hw
    rw [base_kmer_counter_keys, kmerVocab_mem]
    exact (kmerProduct_mem 2 w).mpr ⟨hlen, fun c hc => h s hs c (hsub c hc)⟩
  obtain ⟨m, hm, hkeys, hkeep⟩ := count_kmers_fold 2 seqs (base_kmer_counter 2) hwin
  have hkeys2 : m.map Prod.fst = kmerVocab 2 := by
    rw [hkeys, base_kmer_counter_keys]
  have hnotar : ¬ m.any (fun e => e.1 == "target") = true := by
    intro hc
    have h2 := (any_key_iff m "target").mp hc
    rw [hkeys2] at h2
    exact absurd h2 (by decide)
  have hmlen : m.length = 400 := by
    have h4 := congrArg List.length hkeys2
    rw [List.length_map] at h4
    rw [h4]
    decide
  refine ⟨m, hm, hkeys2, by decide, ?_, ?_, ?_⟩
  · rw [add_target, dset, if_neg hnotar, List.map_append, hkeys2]
    rfl
  · rw [add_target, dset, if_neg hnotar, List.length_append, hmlen]
    rfl
  · intro w hw hne
    exact hkeep w 0 (List.mem_map_of_mem _ hw) hne

set_option maxRecDepth 20000 in
/-- C7 witness: the one-sequence subsample `["CA"]` with target 0. -/
theorem kmer_row_completeness_witness :
    (∀ s ∈ (["CA"] : List String), ∀ c ∈ s.data, c ∈ aminoAlphabet) ∧
    (∃ m, count_kmers 2 (base_kmer_counter 2) ["CA"] = some m ∧
      m.map Prod.fst = kmerVocab 2 ∧
      (kmerVocab 2).length = 400 ∧
      (add_target m 0).map Prod.fst = kmerVocab 2 ++ ["target"] ∧
      (add_target m 0).length = 401 ∧
      (∀ w ∈ kmerVocab 2,
        (∀ s ∈ (["CA"] : List String), ∀ win ∈ windows 2 s.data,
          String.mk win ≠ w) → (w, 0) ∈ m)) :=
  ⟨by decide, kmer_row_completeness ["CA"] 0 (by decide)⟩

/-- C9: k-mer counting is partial on its public input — a subsample
containing a sequence of length ≥ k with a character outside the
canonical alphabet makes `count_kmers` fail with the missing-key error
(`none`), and it is total on subsamples drawn entirely from the
canonical alphabet. -/
theorem count_kmers_partiality (k : Nat) (seqs : List String) (hk : 0 < k) :
    ((∃ s ∈ seqs, k ≤ s.length ∧ ∃ c ∈ s.data, c ∉ aminoAlphabet) →
      count_kmers k (base_kmer_counter k) seqs = none) ∧
    ((∀ s ∈ seqs, ∀ c ∈ s.data, c ∈ aminoAlphabet) →
      (count_kmers k (base_kmer_counter k) seqs).isSome = true) := by
  constructor
  · rintro ⟨s, hs, hlen, c, hc, hbad⟩
    apply count_kmers_fold_none
    have hlen2 : k ≤ s.data.length := hlen
    obtain ⟨w, hw, hcw⟩ := windows_cover hk hlen2 hc
    refine ⟨s, hs, w, hw, ?_⟩
    rw [base_kmer_counter_keys, kmerVocab_mem]
    intro hmem
    exact hbad (((kmerProduct_mem k w).mp hmem).2 c hcw)
  · intro h
    have hwin : ∀ s ∈ seqs, ∀ w ∈ windows k s.data,
        String.mk w ∈ (base_kmer_counter k).map Prod.fst := by
      intro s hs w hw
      obtain ⟨hlen, hsub⟩ := windows_mem hw
      rw [base_kmer_counter_keys, kmerVocab_mem]
      exact (kmerProduct_mem k w).mpr ⟨hlen, fun c hc => h s hs c (hsub c hc)⟩
    obtain ⟨m, hm, _, _⟩ := count_kmers_fold k seqs (base_kmer_counter k) hwin
    have hm2 : count_kmers k (base_kmer_counter k) seqs = some m := hm
    rw [hm2]
    rfl

/-- C9 witness: the subsample `["AXA"]` holds a length-3 sequence with
the non-canonical residue `X`. -/
theorem count_kmers_partiality_witness :
    0 < 2 ∧
    ((∃ s ∈ (["AXA"] : List String), 2 ≤ s.length ∧ ∃ c ∈ s.data, c ∉ aminoAlphabet) →
      count_kmers 2 (base_kmer_counter 2) ["AXA"] = none) ∧
    ((∀ s ∈ (["AXA"] : List String), ∀ c ∈ s.data, c ∈ aminoAlphabet) →
      (count_kmers 2 (base_kmer_counter 2) ["AXA"]).isSome = true) :=
  ⟨by decide, count_kmers_partiality 2 ["AXA"] (by decide)⟩

end TCR
